import Mathlib

/-!
Shallow embedding of the application-command registration, diff and
synchronization subsystem of `disnake/ext/commands/interaction_bot_base.py`,
together with theorems settling the specification claims about it.

Python dicts are embedded as association lists (`List (κ × ν)`) with
insertion-order semantics: `dictInsert` overwrites the value in place when the
key is present and appends otherwise, matching CPython dict insertion;
`dictGet` returns the value of the (unique) entry with the given key;
`dictPop` removes that entry and returns its value (`dict.pop(k, None)`).
-/

set_option maxHeartbeats 1000000

namespace Disnake

/-- `disnake.enums.ApplicationCommandType`: the three application command
types (`chat_input = 1`, `user = 2`, `message = 3`). -/
inductive ApplicationCommandType where
  | chat_input
  | user
  | message
deriving DecidableEq, Repr

/-- `disnake.app_commands.ApplicationCommand` (the command *body* compared by
the diff engine).  The class itself is not under src/; the fields embedded
here are exactly the ones `_app_commands_diff` reads: `name`, `type` and the
client-side `_always_synced` marker.  `fields` abstracts the remaining
externally visible structural data (description, options, permissions,
localization) that the spec's structural-equality comparison looks at. -/
structure ApplicationCommand where
  name : String
  type : ApplicationCommandType
  _always_synced : Bool := false
  fields : Nat := 0
deriving DecidableEq, Repr

/-- Modelled from the spec: `ApplicationCommand.need_sync` is code of this
repository that is not under src/.  Per the spec, update is chosen when "a
structural-equality comparison against the remote counterpart detects a
difference", and the comparison "must consider all externally visible fields
... two commands are equal iff every such field matches". -/
def need_sync (new_cmd old_cmd : ApplicationCommand) : Bool :=
  decide (¬ (new_cmd.name = old_cmd.name ∧ new_cmd.type = old_cmd.type ∧
    new_cmd.fields = old_cmd.fields))

/-- The `(name, type)` key used by the diff engine's dictionaries. -/
abbrev CmdKey := String × ApplicationCommandType

/-- `(cmd.name, cmd.type)`, the key expression of the dict comprehensions in
`_app_commands_diff`. -/
def cmdKey (c : ApplicationCommand) : CmdKey := (c.name, c.type)

section Dict

variable {κ : Type} {ν : Type} [DecidableEq κ]

/-- Python dict insertion: overwrite in place if the key exists, else append. -/
def dictInsert (k : κ) (v : ν) : List (κ × ν) → List (κ × ν)
  | [] => [(k, v)]
  | p :: rest => if p.1 = k then (k, v) :: rest else p :: dictInsert k v rest

/-- Python dict lookup (`d.get(k)` / `d[k]`): value of the entry with key `k`. -/
def dictGet (k : κ) : List (κ × ν) → Option ν
  | [] => none
  | p :: rest => if p.1 = k then some p.2 else dictGet k rest

/-- Python dict construction from a sequence of key-value pairs
(e.g. a dict comprehension): left-to-right insertion. -/
def dictOfList (l : List (κ × ν)) : List (κ × ν) :=
  l.foldl (fun d p => dictInsert p.1 p.2 d) []

/-- Python `d.pop(k, None)`: remove the entry with key `k`, returning the
updated dict and the removed value (`none` if absent). -/
def dictPop (k : κ) : List (κ × ν) → List (κ × ν) × Option ν
  | [] => ([], none)
  | p :: rest =>
    if p.1 = k then (rest, some p.2)
    else
      let r := dictPop k rest
      (p :: r.1, r.2)

/-- The keys of an embedded dict. -/
def dictKeys (l : List (κ × ν)) : List κ := l.map Prod.fst

end Dict

/-- The `_Diff` TypedDict: the four classification buckets. -/
structure Diff where
  no_changes : List ApplicationCommand
  upsert : List ApplicationCommand
  edit : List ApplicationCommand
  delete : List ApplicationCommand
deriving DecidableEq, Repr

/-- Body of the first loop of `_app_commands_diff` (lines 103-113): classify
one entry of the `new_cmds` dict against the `old_cmds` dict. -/
def diffNewStep (ns : ApplicationCommand → ApplicationCommand → Bool)
    (old_cmds : List (CmdKey × ApplicationCommand)) (diff : Diff)
    (p : CmdKey × ApplicationCommand) : Diff :=
  match dictGet p.1 old_cmds with
  | none => { diff with upsert := diff.upsert ++ [p.2] }
  | some old_cmd =>
    if p.2._always_synced then { diff with no_changes := diff.no_changes ++ [old_cmd] }
    else if ns p.2 old_cmd then { diff with edit := diff.edit ++ [p.2] }
    else { diff with no_changes := diff.no_changes ++ [p.2] }

/-- Body of the second loop of `_app_commands_diff` (lines 115-117): an old
command whose key is not in `new_cmds` goes to the delete bucket.
(`name_and_type not in new_cmds` is key absence, i.e. `dictGet` is `none`.) -/
def diffOldStep (new_cmds : List (CmdKey × ApplicationCommand)) (diff : Diff)
    (p : CmdKey × ApplicationCommand) : Diff :=
  if (dictGet p.1 new_cmds).isNone then { diff with delete := diff.delete ++ [p.2] }
  else diff

/-- `_app_commands_diff(new_commands, old_commands)` (lines 89-119).  The
structural comparison `new_cmd.need_sync(old_cmd)` is a method of the (not
embedded) command body class, so it is a parameter `ns`. -/
def _app_commands_diff (ns : ApplicationCommand → ApplicationCommand → Bool)
    (new_commands old_commands : List ApplicationCommand) : Diff :=
  let new_cmds := dictOfList (new_commands.map fun cmd => (cmdKey cmd, cmd))
  let old_cmds := dictOfList (old_commands.map fun cmd => (cmdKey cmd, cmd))
  let d1 := new_cmds.foldl (diffNewStep ns old_cmds) ⟨[], [], [], []⟩
  old_cmds.foldl (diffOldStep new_cmds) d1

/-- The delete-bucket reclassification block shared (textually) by both sync
paths: move every delete entry to `no_changes` and clear the delete bucket
when `reclassify` holds, otherwise keep the diff as computed. -/
def applyDeletionPolicy (reclassify : Bool) (d : Diff) : Diff :=
  if reclassify then { d with no_changes := d.no_changes ++ d.delete, delete := [] }
  else d

/-- Deletion policy of the *global* path of `_sync_application_commands`
(lines 859-862): reclassify when `allow_command_deletion` is disabled. -/
def globalDeletionPolicy (allow_command_deletion : Bool) (d : Diff) : Diff :=
  applyDeletionPolicy (!allow_command_deletion) d

/-- Deletion policy of the *guild* path of `_sync_application_commands`
(lines 887-890): the source guards the same block with
`if self._command_sync.allow_command_deletion:`, i.e. it reclassifies when
deletion is *enabled* — the condition is inverted relative to the global
path (and to the block's own comment). -/
def guildDeletionPolicy (allow_command_deletion : Bool) (d : Diff) : Diff :=
  applyDeletionPolicy allow_command_deletion d

/-- `update_required = bool(diff["upsert"]) or bool(diff["edit"]) or
bool(diff["delete"])` (lines 863 / 891). -/
def update_required (d : Diff) : Bool :=
  !d.upsert.isEmpty || !d.edit.isEmpty || !d.delete.isEmpty

/-- The push decision of one scope of `_sync_application_commands`
(lines 873-877 / 902-905): no bulk-overwrite call when `update_required` is
false, otherwise exactly one call with payload
`diff["no_changes"] + diff["edit"] + diff["upsert"]`. -/
def pushPayload (d : Diff) : Option (List ApplicationCommand) :=
  if update_required d then some (d.no_changes ++ d.edit ++ d.upsert) else none

/-- One scope of `_sync_application_commands`: diff the local commands
against the cached remote snapshot, apply the scope's deletion policy
(`reclassify` is `!allow_command_deletion` on the global path and
`allow_command_deletion` on the guild path), and decide the push. -/
def scopeSyncPush (ns : ApplicationCommand → ApplicationCommand → Bool)
    (reclassify : Bool) (local_cmds remote_cmds : List ApplicationCommand) :
    Option (List ApplicationCommand) :=
  pushPayload (applyDeletionPolicy reclassify (_app_commands_diff ns local_cmds remote_cmds))

/-- Modelled from the spec: `bulk_overwrite_global_commands` /
`bulk_overwrite_guild_commands` are code of this repository that is not
under src/; per the spec the synchronizer "issue[s] a single atomic
bulk-replace call for that scope" (`bulk_replace_commands(scope, list)`),
after which the scope's remote command set is the pushed list, which a later
pass fetches as its remote snapshot.  One full pass over a scope therefore
returns the push decision together with the resulting remote snapshot. -/
def scopeSyncPass (ns : ApplicationCommand → ApplicationCommand → Bool)
    (reclassify : Bool) (local_cmds remote_cmds : List ApplicationCommand) :
    Option (List ApplicationCommand) × List ApplicationCommand :=
  match scopeSyncPush ns reclassify local_cmds remote_cmds with
  | some payload => (some payload, payload)
  | none => (none, remote_cmds)

/-- The name slot of a registry key.  Registration always stores a `str`
name, but `get_app_command` (line 471) builds its lookup key from
`chain[0]`, where `chain` is the module-level `itertools.chain` import: in
Python ≥ 3.9 this evaluates (without error) to the generic alias
`itertools.chain[0]`, a non-string value, embedded as `chainGenericAlias`. -/
inductive NameSlot where
  | str (s : String)
  | chainGenericAlias
deriving DecidableEq, Repr

/-- The `AppCommandMetadata` NamedTuple (lines 83-86): the registry key
`(name, guild_id, type)`. -/
structure AppCommandMetadata where
  name : NameSlot
  guild_id : Option Int
  type : ApplicationCommandType
deriving DecidableEq, Repr

/-- `InvokableApplicationCommand`, restricted to the attributes the embedded
registry operations read: `name`, `type` (`body.type`), `guild_ids` and the
remote-assigned `body.id`. -/
structure InvokableApplicationCommand where
  name : String
  type : ApplicationCommandType
  guild_ids : Option (List Int) := none
  body_id : Option Nat := none
deriving DecidableEq, Repr

/-- The `_all_app_commands` dict: `Dict[AppCommandMetadata,
InvokableApplicationCommand]`. -/
abbrev Registry := List (AppCommandMetadata × InvokableApplicationCommand)

/-- `errors.CommandRegistrationError(name, guild_id=...)` as raised by the
add methods. -/
structure CommandRegistrationError where
  name : String
  guild_id : Option Int := none
deriving DecidableEq, Repr

/-- Python truthiness of the `guild_ids` attribute (`if cmd.guild_ids:`):
true exactly for a non-`None`, non-empty sequence. -/
def guildIdsTruthy : Option (List Int) → Bool
  | some (_ :: _) => true
  | _ => false

/-- Python truthiness of an optional integer (`if guild_id:` in
`remove_slash_command`, line 390): false for `None` and for `0`. -/
def optIntTruthy : Option Int → Bool
  | some g => g != 0
  | none => false

/-- The per-guild registration loop of the add methods (lines 250-261 /
299-310 / 350-361): for each guild id in order, raise
`CommandRegistrationError(name, guild_id=guild_id)` if the
`(name, guild_id, type)` key is already present (per
`disnake.utils.get(self._all_app_commands, name=..., type=..., guild_id=...)`,
modelled from the spec as presence of the exact `(name, type, scope)` key,
`utils.get` not being under src/), else insert the command under that key.
A raise leaves the entries inserted so far in place (Python mutates
`self._all_app_commands` in place and the exception aborts the loop). -/
def add_guild_entries (cmd : InvokableApplicationCommand) :
    Registry → List Int → Registry × Option CommandRegistrationError
  | reg, [] => (reg, none)
  | reg, g :: gs =>
    if (dictGet (AppCommandMetadata.mk (.str cmd.name) (some g) cmd.type) reg).isSome then
      (reg, some ⟨cmd.name, some g⟩)
    else
      add_guild_entries cmd
        (dictInsert (AppCommandMetadata.mk (.str cmd.name) (some g) cmd.type) cmd reg) gs

/-- Shared logic of `add_slash_command` / `add_user_command` /
`add_message_command` (the three method bodies are textually identical
modulo the isinstance checks, which the embedding's types make vacuous):
if `cmd.guild_ids` is truthy, register per guild; otherwise register
globally under `(name, None, type)`, raising on collision.  Returns the
resulting registry together with the raised error, if any. -/
def add_app_command (reg : Registry) (cmd : InvokableApplicationCommand) :
    Registry × Option CommandRegistrationError :=
  match cmd.guild_ids with
  | some (g :: gs) => add_guild_entries cmd reg (g :: gs)
  | _ =>
    if (dictGet (AppCommandMetadata.mk (.str cmd.name) none cmd.type) reg).isSome then
      (reg, some ⟨cmd.name, none⟩)
    else (dictInsert (AppCommandMetadata.mk (.str cmd.name) none cmd.type) cmd reg, none)

/-- `add_slash_command` (lines 225-272). -/
def add_slash_command (reg : Registry) (cmd : InvokableApplicationCommand) :
    Registry × Option CommandRegistrationError :=
  add_app_command reg cmd

/-- `add_user_command` (lines 274-321). -/
def add_user_command (reg : Registry) (cmd : InvokableApplicationCommand) :
    Registry × Option CommandRegistrationError :=
  add_app_command reg cmd

/-- `add_message_command` (lines 323-372). -/
def add_message_command (reg : Registry) (cmd : InvokableApplicationCommand) :
    Registry × Option CommandRegistrationError :=
  add_app_command reg cmd

/-- `remove_slash_command(name, guild_id=...)` (lines 374-401): builds the
key with `if guild_id:` Python truthiness, then `self._all_app_commands.pop`. -/
def remove_slash_command (reg : Registry) (name : String)
    (guild_id : Option Int := none) : Registry × Option InvokableApplicationCommand :=
  let meta :=
    if optIntTruthy guild_id then
      AppCommandMetadata.mk (.str name) guild_id ApplicationCommandType.chat_input
    else AppCommandMetadata.mk (.str name) none ApplicationCommandType.chat_input
  dictPop meta reg

/-- `remove_user_command(name, guild_id=...)` (lines 403-423): no truthiness
test here, the key uses `guild_id` as passed. -/
def remove_user_command (reg : Registry) (name : String)
    (guild_id : Option Int := none) : Registry × Option InvokableApplicationCommand :=
  dictPop (AppCommandMetadata.mk (.str name) guild_id ApplicationCommandType.user) reg

/-- `remove_message_command(name, guild_id=...)` (lines 425-445). -/
def remove_message_command (reg : Registry) (name : String)
    (guild_id : Option Int := none) : Registry × Option InvokableApplicationCommand :=
  dictPop (AppCommandMetadata.mk (.str name) guild_id ApplicationCommandType.message) reg

/-- `get_app_command(name, type, guild_id=...)` (lines 465-474): the lookup
key is `AppCommandMetadata(chain[0], type=type, guild_id=guild_id)` — the
source passes `chain[0]` (the generic alias `itertools.chain[0]`, `chain`
being the module-level itertools import) in the name slot instead of the
`name` parameter, which is only used for the isinstance check. -/
def get_app_command (all_app_commands : Registry) (name : String)
    (type : ApplicationCommandType) (guild_id : Option Int := none) :
    Option InvokableApplicationCommand :=
  dictGet (AppCommandMetadata.mk NameSlot.chainGenericAlias guild_id type) all_app_commands

/-- `interaction.data` as read by `process_application_commands`: the
remote-assigned command id and the command type. -/
structure InteractionData where
  id : Nat
  type : ApplicationCommandType
deriving DecidableEq, Repr

/-- The inbound `ApplicationCommandInteraction`, restricted to the fields the
dispatcher reads. -/
structure Interaction where
  data : InteractionData
  guild_id : Option Int
deriving DecidableEq, Repr

/-- The observable effects of one `process_application_commands` run, in
order.  The API calls of the corrective branch record whether the underlying
HTTP request failed with an `HTTPException` (`ok`); either way the exception
is caught by the surrounding `try`/`except`, so the run itself never raises
from them. -/
inductive DispatchAction where
  | bulkOverwriteGuildCommands (guild_id : Option Int)
      (payload : List ApplicationCommand) (ok : Bool)
  | respondJustSynced (ok : Bool)
  | dispatchEvent (event : String)
  | invokeCommand (cmd : InvokableApplicationCommand)
  | dispatchCompletion (event : String)
  | dispatchError (cmd : InvokableApplicationCommand)
deriving DecidableEq, Repr

/-- The invocation path of `process_application_commands` (lines 1423-1458):
find the registered command whose `body.id` equals the interaction's command
id (the for/break/else loop), determine the event name from the command
type, return if either is missing, else dispatch the event and — inside a
`try`/`except errors.CommandError` — run the call-once checks (`can_run`),
invoke the command (`invoke_fails` abstracts a `CommandError` raised by the
invocation) and dispatch completion, routing any `CommandError` (including
the `CheckFailure` raised on check failure) to `dispatch_error`.  The
second component is the uncaught exception, always `none` on these paths. -/
def invocationPath (all_app_commands : List InvokableApplicationCommand)
    (can_run invoke_fails : Bool) (interaction : Interaction) :
    List DispatchAction × Option CommandRegistrationError :=
  let app_command := all_app_commands.find? fun c => c.body_id == some interaction.data.id
  let event_name : Option String :=
    match interaction.data.type with
    | .chat_input => some "slash_command"
    | .user => some "user_command"
    | .message => some "message_command"
  match event_name, app_command with
  | some ev, some cmd =>
    (DispatchAction.dispatchEvent ev ::
      (if can_run then
        DispatchAction.invokeCommand cmd ::
          (if invoke_fails then [DispatchAction.dispatchError cmd]
           else [DispatchAction.dispatchCompletion ev])
      else [DispatchAction.dispatchError cmd]), none)
  | _, _ => ([], none)

/-- `process_application_commands` (lines 1379-1458).  `sync_commands` and
`sync_queued` are `self._command_sync.sync_commands` and
`self._sync_queued`; `get_global_command` / `get_guild_command` are the
client's remote-snapshot lookups by remote-assigned id (collaborators not
under src/, passed as parameters); `overwrite_fails` / `respond_fails` say
whether the corrective branch's two API calls raise `HTTPException` (each is
caught by its own `try`/`except`, lines 1407-1420).  Returns the effect
trace and the uncaught exception (if any). -/
def process_application_commands (sync_commands sync_queued : Bool)
    (get_global_command : Nat → Option ApplicationCommand)
    (get_guild_command : Option Int → Nat → Option ApplicationCommand)
    (all_app_commands : List InvokableApplicationCommand)
    (can_run invoke_fails overwrite_fails respond_fails : Bool)
    (interaction : Interaction) :
    List DispatchAction × Option CommandRegistrationError :=
  if sync_commands && !sync_queued then
    let known_command :=
      match get_global_command interaction.data.id with
      | some c => some c
      | none => get_guild_command interaction.guild_id interaction.data.id
    match known_command with
    | none =>
      ([DispatchAction.bulkOverwriteGuildCommands interaction.guild_id [] (!overwrite_fails),
        DispatchAction.respondJustSynced (!respond_fails)], none)
    | some _ => invocationPath all_app_commands can_run invoke_fails interaction
  else invocationPath all_app_commands can_run invoke_fails interaction

/-- The key-value pair a command contributes to a diff-engine dict. -/
def pairF (c : ApplicationCommand) : CmdKey × ApplicationCommand := (cmdKey c, c)

/-- Selector: a command whose key is absent from the given dict (the upsert
case of the first diff loop, and the delete case of the second). -/
def pUp (old_cmds : List (CmdKey × ApplicationCommand)) (c : ApplicationCommand) : Bool :=
  (dictGet (cmdKey c) old_cmds).isNone

/-- Selector: a command routed to the edit bucket by the first diff loop. -/
def pEd (ns : ApplicationCommand → ApplicationCommand → Bool)
    (old_cmds : List (CmdKey × ApplicationCommand)) (c : ApplicationCommand) : Bool :=
  match dictGet (cmdKey c) old_cmds with
  | some o => !c._always_synced && ns c o
  | none => false

/-- Selector: a command routed to the `no_changes` bucket by the first diff
loop. -/
def pNo (ns : ApplicationCommand → ApplicationCommand → Bool)
    (old_cmds : List (CmdKey × ApplicationCommand)) (c : ApplicationCommand) : Bool :=
  match dictGet (cmdKey c) old_cmds with
  | some o => c._always_synced || !(ns c o)
  | none => false

/-- The element the first diff loop appends to `no_changes` for a local
command (the remote counterpart in the always-synced case, the local command
itself in the structurally-equal case). -/
def fNo (ns : ApplicationCommand → ApplicationCommand → Bool)
    (old_cmds : List (CmdKey × ApplicationCommand)) (c : ApplicationCommand) :
    Option ApplicationCommand :=
  match dictGet (cmdKey c) old_cmds with
  | some o => if c._always_synced then some o else if ns c o then none else some c
  | none => none

-- ===================  theorems  ===================

section DictLemmas

variable {κ : Type} {ν : Type} [DecidableEq κ]

theorem dictGet_eq_none_iff (k : κ) (l : List (κ × ν)) :
    dictGet k l = none ↔ k ∉ dictKeys l := by
  induction l with
  | nil => simp [dictGet, dictKeys]
  | cons p rest ih =>
    by_cases h : p.1 = k <;> simp [dictGet, dictKeys, h, ih] <;> tauto

theorem dictGet_isSome_iff (k : κ) (l : List (κ × ν)) :
    (dictGet k l).isSome = true ↔ k ∈ dictKeys l := by
  rcases h : dictGet k l with _ | v
  · rw [dictGet_eq_none_iff] at h
    simp [h]
  · have : k ∈ dictKeys l := by
      by_contra hk
      rw [← dictGet_eq_none_iff] at hk
      simp [hk] at h
    simp [this]

theorem dictGet_mem_of_eq_some {k : κ} {v : ν} {l : List (κ × ν)}
    (h : dictGet k l = some v) : (k, v) ∈ l := by
  induction l with
  | nil => simp [dictGet] at h
  | cons p rest ih =>
    by_cases hp : p.1 = k
    · simp only [dictGet, if_pos hp, Option.some.injEq] at h
      have : (k, v) = p := by rw [← hp, ← h]
      rw [this]
      exact List.mem_cons_self _ _
    · simp only [dictGet, if_neg hp] at h
      exact List.mem_cons_of_mem _ (ih h)

theorem dictGet_eq_some_of_mem {k : κ} {v : ν} {l : List (κ × ν)}
    (hn : (dictKeys l).Nodup) (hm : (k, v) ∈ l) : dictGet k l = some v := by
  induction l with
  | nil => simp at hm
  | cons p rest ih =>
    simp only [dictKeys, List.map_cons, List.nodup_cons] at hn
    rcases List.mem_cons.mp hm with h | h
    · subst h
      simp [dictGet]
    · have hk : p.1 ≠ k := by
        intro he
        exact hn.1 (he ▸ List.mem_map_of_mem Prod.fst h)
      simp [dictGet, hk]
      exact ih hn.2 h

theorem dictInsert_of_not_mem {k : κ} {l : List (κ × ν)} (v : ν)
    (h : k ∉ dictKeys l) : dictInsert k v l = l ++ [(k, v)] := by
  induction l with
  | nil => simp [dictInsert]
  | cons p rest ih =>
    simp only [dictKeys, List.map_cons, List.mem_cons] at h
    push_neg at h
    have h1 : ¬ p.1 = k := fun he => h.1 he.symm
    simp only [dictInsert, if_neg h1, List.cons_append]
    rw [ih h.2]

theorem dictOfList_go (l acc : List (κ × ν))
    (h : (dictKeys (acc ++ l)).Nodup) :
    l.foldl (fun d p => dictInsert p.1 p.2 d) acc = acc ++ l := by
  induction l generalizing acc with
  | nil => simp
  | cons p rest ih =>
    have hmem : p.1 ∉ dictKeys acc := by
      have h' : (dictKeys acc).Nodup ∧ (dictKeys (p :: rest)).Nodup ∧
          (dictKeys acc).Disjoint (dictKeys (p :: rest)) := by
        rw [← List.nodup_append]
        simpa [dictKeys] using h
      intro hc
      exact h'.2.2 hc (by simp [dictKeys])
    have hins : dictInsert p.1 p.2 acc = acc ++ [p] := by
      rw [dictInsert_of_not_mem _ hmem]
    have hre : (dictKeys ((acc ++ [p]) ++ rest)).Nodup := by
      simpa [List.append_assoc] using h
    calc (p :: rest).foldl (fun d q => dictInsert q.1 q.2 d) acc
        = rest.foldl (fun d q => dictInsert q.1 q.2 d) (acc ++ [p]) := by
          simp [List.foldl_cons, hins]
      _ = (acc ++ [p]) ++ rest := ih _ hre
      _ = acc ++ p :: rest := by simp

theorem dictOfList_eq_self {l : List (κ × ν)} (h : (dictKeys l).Nodup) :
    dictOfList l = l := by
  simpa using dictOfList_go l [] (by simpa using h)

theorem dictInsert_cons_pos {k : κ} {v : ν} {p : κ × ν} {rest : List (κ × ν)}
    (hp : p.1 = k) : dictInsert k v (p :: rest) = (k, v) :: rest := by
  simp only [dictInsert, if_pos hp]

theorem dictInsert_cons_neg {k : κ} {v : ν} {p : κ × ν} {rest : List (κ × ν)}
    (hp : ¬ p.1 = k) : dictInsert k v (p :: rest) = p :: dictInsert k v rest := by
  simp only [dictInsert, if_neg hp]

theorem dictKeys_mem_dictInsert {k a : κ} {v : ν} {l : List (κ × ν)}
    (h : a ∈ dictKeys l) : a ∈ dictKeys (dictInsert k v l) := by
  induction l with
  | nil => simp [dictKeys] at h
  | cons p rest ih =>
    simp only [dictKeys, List.map_cons, List.mem_cons] at h
    by_cases hp : p.1 = k
    · rw [dictInsert_cons_pos hp]
      simp only [dictKeys, List.map_cons, List.mem_cons]
      rcases h with h | h
      · exact Or.inl (h.trans hp)
      · exact Or.inr h
    · rw [dictInsert_cons_neg hp]
      simp only [dictKeys, List.map_cons, List.mem_cons]
      rcases h with h | h
      · exact Or.inl h
      · exact Or.inr (ih h)

theorem dictGet_dictInsert_isSome_mono {k k' : κ} {v : ν} {l : List (κ × ν)}
    (h : (dictGet k l).isSome = true) :
    (dictGet k (dictInsert k' v l)).isSome = true := by
  rw [dictGet_isSome_iff] at h ⊢
  exact dictKeys_mem_dictInsert h

theorem dictGet_dictInsert_same_val {k k' : κ} {v : ν} {l : List (κ × ν)}
    (h : dictGet k l = some v) :
    dictGet k (dictInsert k' v l) = some v := by
  induction l with
  | nil => simp [dictGet] at h
  | cons p rest ih =>
    by_cases hp : p.1 = k'
    · rw [dictInsert_cons_pos hp]
      by_cases hk : k' = k
      · have hpk : p.1 = k := hp.trans hk
        simp only [dictGet, if_pos hpk, Option.some.injEq] at h
        simp only [dictGet, if_pos hk, h]
      · have hpk : ¬ p.1 = k := fun he => hk (hp.symm.trans he)
        simp only [dictGet, if_neg hpk] at h
        simp only [dictGet, if_neg hk]
        exact h
    · rw [dictInsert_cons_neg hp]
      by_cases hpk : p.1 = k
      · simp only [dictGet, if_pos hpk] at h ⊢
        exact h
      · simp only [dictGet, if_neg hpk] at h ⊢
        exact ih h

theorem dictKeys_dictInsert_subset {k : κ} {v : ν} {l : List (κ × ν)} {a : κ}
    (h : a ∈ dictKeys (dictInsert k v l)) : a = k ∨ a ∈ dictKeys l := by
  induction l with
  | nil =>
    simp only [dictInsert, dictKeys, List.map_cons, List.map_nil,
      List.mem_cons, List.not_mem_nil, or_false] at h
    exact Or.inl h
  | cons p rest ih =>
    by_cases hp : p.1 = k
    · rw [dictInsert_cons_pos hp] at h
      simp only [dictKeys, List.map_cons, List.mem_cons] at h ⊢
      rcases h with h | h
      · exact Or.inl h
      · exact Or.inr (Or.inr h)
    · rw [dictInsert_cons_neg hp] at h
      simp only [dictKeys, List.map_cons, List.mem_cons] at h ⊢
      rcases h with h | h
      · exact Or.inr (Or.inl h)
      · rcases ih h with h' | h'
        · exact Or.inl h'
        · exact Or.inr (Or.inr h')

theorem dictKeys_nodup_dictInsert {k : κ} {v : ν} {l : List (κ × ν)}
    (h : (dictKeys l).Nodup) : (dictKeys (dictInsert k v l)).Nodup := by
  induction l with
  | nil => simp [dictInsert, dictKeys]
  | cons p rest ih =>
    simp only [dictKeys, List.map_cons, List.nodup_cons] at h
    by_cases hp : p.1 = k
    · rw [dictInsert_cons_pos hp]
      simp only [dictKeys, List.map_cons, List.nodup_cons]
      exact ⟨by rw [← hp]; exact h.1, h.2⟩
    · rw [dictInsert_cons_neg hp]
      simp only [dictKeys, List.map_cons, List.nodup_cons]
      refine ⟨fun hc => ?_, ih h.2⟩
      rcases dictKeys_dictInsert_subset hc with h' | h'
      · exact hp h'
      · exact h.1 h'

theorem dictPop_of_get_none {k : κ} {l : List (κ × ν)}
    (h : dictGet k l = none) : dictPop k l = (l, none) := by
  induction l with
  | nil => simp [dictPop]
  | cons p rest ih =>
    by_cases hp : p.1 = k
    · simp [dictGet, hp] at h
    · simp [dictGet, hp] at h
      simp [dictPop, hp, ih h]

end DictLemmas

section DiffLemmas

variable (ns : ApplicationCommand → ApplicationCommand → Bool)

theorem dictKeys_map_pairF (L : List ApplicationCommand) :
    dictKeys (L.map pairF) = L.map cmdKey := by
  simp only [dictKeys, List.map_map]
  rfl

theorem foldl_diffNewStep (old_cmds : List (CmdKey × ApplicationCommand))
    (L : List ApplicationCommand) (d : Diff) :
    (L.map pairF).foldl (diffNewStep ns old_cmds) d =
      { no_changes := d.no_changes ++ L.filterMap (fNo ns old_cmds),
        upsert := d.upsert ++ L.filter (pUp old_cmds),
        edit := d.edit ++ L.filter (pEd ns old_cmds),
        delete := d.delete } := by
  induction L generalizing d with
  | nil => simp
  | cons c L ih =>
    rw [List.map_cons, List.foldl_cons, ih]
    rcases h : dictGet (cmdKey c) old_cmds with _ | o
    · simp [diffNewStep, pairF, fNo, pUp, pEd, h, List.filterMap_cons, List.filter_cons]
    · by_cases ha : c._always_synced
      · simp [diffNewStep, pairF, fNo, pUp, pEd, h, ha,
          List.filterMap_cons, List.filter_cons]
      · by_cases hs : ns c o
        · simp [diffNewStep, pairF, fNo, pUp, pEd, h, ha, hs,
            List.filterMap_cons, List.filter_cons]
        · simp [diffNewStep, pairF, fNo, pUp, pEd, h, ha, hs,
            List.filterMap_cons, List.filter_cons]

theorem foldl_diffOldStep (new_cmds : List (CmdKey × ApplicationCommand))
    (R : List ApplicationCommand) (d : Diff) :
    (R.map pairF).foldl (diffOldStep new_cmds) d =
      { d with delete := d.delete ++ R.filter (pUp new_cmds) } := by
  induction R generalizing d with
  | nil => simp
  | cons o R ih =>
    rw [List.map_cons, List.foldl_cons, ih]
    by_cases h : (dictGet (cmdKey o) new_cmds).isNone
    · simp [diffOldStep, pairF, pUp, h, List.filter_cons]
    · simp [diffOldStep, pairF, pUp, h, List.filter_cons]

/-- Characterization of `_app_commands_diff` on uniquely-keyed inputs: each
bucket is a selection from the corresponding input list, in input order. -/
theorem app_commands_diff_eq (L R : List ApplicationCommand)
    (hL : (L.map cmdKey).Nodup) (hR : (R.map cmdKey).Nodup) :
    _app_commands_diff ns L R =
      { no_changes := L.filterMap (fNo ns (R.map pairF)),
        upsert := L.filter (pUp (R.map pairF)),
        edit := L.filter (pEd ns (R.map pairF)),
        delete := R.filter (pUp (L.map pairF)) } := by
  have hLd : dictOfList (L.map pairF) = L.map pairF :=
    dictOfList_eq_self (by rw [dictKeys_map_pairF]; exact hL)
  have hRd : dictOfList (R.map pairF) = R.map pairF :=
    dictOfList_eq_self (by rw [dictKeys_map_pairF]; exact hR)
  show (dictOfList (R.map fun cmd => (cmdKey cmd, cmd))).foldl
      (diffOldStep (dictOfList (L.map fun cmd => (cmdKey cmd, cmd))))
      ((dictOfList (L.map fun cmd => (cmdKey cmd, cmd))).foldl
        (diffNewStep ns (dictOfList (R.map fun cmd => (cmdKey cmd, cmd)))) ⟨[], [], [], []⟩) = _
  rw [show (fun (cmd : ApplicationCommand) => (cmdKey cmd, cmd)) = pairF from rfl,
    hLd, hRd, foldl_diffNewStep, foldl_diffOldStep]
  simp

end DiffLemmas

section PushLemmas

theorem update_required_eq_false_iff (d : Diff) :
    update_required d = false ↔ (d.upsert = [] ∧ d.edit = [] ∧ d.delete = []) := by
  simp [update_required, List.isEmpty_iff, and_assoc]

theorem pushPayload_eq_none_iff (d : Diff) :
    pushPayload d = none ↔ update_required d = false := by
  by_cases h : update_required d = true
  · simp [pushPayload, h]
  · simp only [Bool.not_eq_true] at h
    simp [pushPayload, h]

theorem pushPayload_eq_some (d : Diff) (h : update_required d = true) :
    pushPayload d = some (d.no_changes ++ d.edit ++ d.upsert) := by
  simp [pushPayload, h]

end PushLemmas

/-- C1 (refuted; code bug): the two sync paths do *not* apply a uniform
deletion policy.  With `allow_command_deletion` disabled and a diff whose
delete bucket holds the remote-only command `stale`, the global path
(lines 859-862) reclassifies the delete entry as unchanged, but the guild
path (lines 887-890) keeps it — its guard is
`if self._command_sync.allow_command_deletion:`, inverted relative to the
global path and contradicting the block's own comment; symmetrically, with
deletion *enabled* the guild path reclassifies and the global path keeps. -/
theorem guild_deletion_policy_inverted :
    globalDeletionPolicy false
        { no_changes := [], upsert := [], edit := [],
          delete := [{ name := "stale", type := .chat_input }] } =
      { no_changes := [{ name := "stale", type := .chat_input }],
        upsert := [], edit := [], delete := [] } ∧
    guildDeletionPolicy false
        { no_changes := [], upsert := [], edit := [],
          delete := [{ name := "stale", type := .chat_input }] } =
      { no_changes := [], upsert := [], edit := [],
        delete := [{ name := "stale", type := .chat_input }] } ∧
    guildDeletionPolicy true
        { no_changes := [], upsert := [], edit := [],
          delete := [{ name := "stale", type := .chat_input }] } =
      { no_changes := [{ name := "stale", type := .chat_input }],
        upsert := [], edit := [], delete := [] } ∧
    globalDeletionPolicy true
        { no_changes := [], upsert := [], edit := [],
          delete := [{ name := "stale", type := .chat_input }] } =
      { no_changes := [], upsert := [], edit := [],
        delete := [{ name := "stale", type := .chat_input }] } :=
  ⟨rfl, rfl, rfl, rfl⟩

/-- C2: on uniquely-keyed inputs, `_app_commands_diff` classifies every
local command with no remote counterpart under its `(name, type)` key into
the upsert (create) bucket; every local command with a counterpart and the
always-synced marker into the `no_changes` (unchanged) bucket (as its
counterpart); every local command whose structural comparison against its
counterpart detects a difference into the edit (update) bucket; every
remaining local command into `no_changes`; and every remote command with no
local counterpart into the delete bucket.  For local/remote sets with
disjoint names the classification is entirely create and delete. -/
theorem app_commands_diff_classification
    (ns : ApplicationCommand → ApplicationCommand → Bool)
    (L R : List ApplicationCommand)
    (hL : (L.map cmdKey).Nodup) (hR : (R.map cmdKey).Nodup) :
    (∀ c ∈ L, dictGet (cmdKey c) (R.map pairF) = none →
      c ∈ (_app_commands_diff ns L R).upsert) ∧
    (∀ c ∈ L, ∀ o, dictGet (cmdKey c) (R.map pairF) = some o →
      c._always_synced = true → o ∈ (_app_commands_diff ns L R).no_changes) ∧
    (∀ c ∈ L, ∀ o, dictGet (cmdKey c) (R.map pairF) = some o →
      c._always_synced = false → ns c o = true →
      c ∈ (_app_commands_diff ns L R).edit) ∧
    (∀ c ∈ L, ∀ o, dictGet (cmdKey c) (R.map pairF) = some o →
      c._always_synced = false → ns c o = false →
      c ∈ (_app_commands_diff ns L R).no_changes) ∧
    (∀ o ∈ R, dictGet (cmdKey o) (L.map pairF) = none →
      o ∈ (_app_commands_diff ns L R).delete) ∧
    ((∀ c ∈ L, ∀ o ∈ R, c.name ≠ o.name) →
      _app_commands_diff ns L R = ⟨[], L, [], R⟩) := by
  rw [app_commands_diff_eq ns L R hL hR]
  refine ⟨?_, ?_, ?_, ?_, ?_, ?_⟩
  · intro c hc h
    exact List.mem_filter.mpr ⟨hc, by simp [pUp, h]⟩
  · intro c hc o h ha
    exact List.mem_filterMap.mpr ⟨c, hc, by simp [fNo, h, ha]⟩
  · intro c hc o h ha hs
    exact List.mem_filter.mpr ⟨hc, by simp [pEd, h, ha, hs]⟩
  · intro c hc o h ha hs
    exact List.mem_filterMap.mpr ⟨c, hc, by simp [fNo, h, ha, hs]⟩
  · intro o ho h
    exact List.mem_filter.mpr ⟨ho, by simp [pUp, h]⟩
  · intro hdisj
    have hnoneR : ∀ c ∈ L, dictGet (cmdKey c) (R.map pairF) = none := by
      intro c hc
      rw [dictGet_eq_none_iff, dictKeys_map_pairF]
      intro hmem
      rcases List.mem_map.mp hmem with ⟨o, ho, he⟩
      exact hdisj c hc o ho (congrArg Prod.fst he).symm
    have hnoneL : ∀ o ∈ R, dictGet (cmdKey o) (L.map pairF) = none := by
      intro o ho
      rw [dictGet_eq_none_iff, dictKeys_map_pairF]
      intro hmem
      rcases List.mem_map.mp hmem with ⟨c, hc, he⟩
      exact hdisj c hc o ho (congrArg Prod.fst he)
    have h1 : L.filterMap (fNo ns (R.map pairF)) = [] :=
      List.filterMap_eq_nil_iff.mpr fun c hc => by simp [fNo, hnoneR c hc]
    have h2 : L.filter (pUp (R.map pairF)) = L :=
      List.filter_eq_self.mpr fun c hc => by simp [pUp, hnoneR c hc]
    have h3 : L.filter (pEd ns (R.map pairF)) = [] :=
      List.filter_eq_nil_iff.mpr fun c hc => by simp [pEd, hnoneR c hc]
    have h4 : R.filter (pUp (L.map pairF)) = R :=
      List.filter_eq_self.mpr fun o ho => by simp [pUp, hnoneL o ho]
    rw [h1, h2, h3, h4]

/-- Witness for C2: on a concrete disjointly-named pair, the diff is
entirely create (local) and delete (remote). -/
theorem app_commands_diff_classification_witness :
    _app_commands_diff need_sync
        [{ name := "a", type := .chat_input }]
        [{ name := "b", type := .chat_input }] =
      ⟨[], [{ name := "a", type := .chat_input }], [],
        [{ name := "b", type := .chat_input }]⟩ :=
  (app_commands_diff_classification need_sync _ _ (by decide)
    (by decide)).2.2.2.2.2 (by decide)

/-- C8: a local command marked always-synced that has a remote counterpart
under its `(name, type)` key is classified unchanged — its counterpart lands
in `no_changes` (with the same key) — and it is never placed into the edit,
upsert or delete bucket, regardless of the comparator `ns` and of any
structural difference. -/
theorem always_synced_classified_unchanged
    (ns : ApplicationCommand → ApplicationCommand → Bool)
    (L R : List ApplicationCommand)
    (hL : (L.map cmdKey).Nodup) (hR : (R.map cmdKey).Nodup)
    (c : ApplicationCommand) (hc : c ∈ L) (ha : c._always_synced = true)
    (o : ApplicationCommand) (ho : dictGet (cmdKey c) (R.map pairF) = some o) :
    o ∈ (_app_commands_diff ns L R).no_changes ∧
    cmdKey o = cmdKey c ∧
    c ∉ (_app_commands_diff ns L R).edit ∧
    c ∉ (_app_commands_diff ns L R).upsert ∧
    c ∉ (_app_commands_diff ns L R).delete := by
  have hkey : cmdKey o = cmdKey c := by
    have hmem := dictGet_mem_of_eq_some ho
    rcases List.mem_map.mp hmem with ⟨r, _, he⟩
    have h2 : r = o := congrArg Prod.snd he
    rw [← h2]
    exact congrArg Prod.fst he
  rw [app_commands_diff_eq ns L R hL hR]
  refine ⟨?_, hkey, ?_, ?_, ?_⟩
  · exact List.mem_filterMap.mpr ⟨c, hc, by simp [fNo, ho, ha]⟩
  · intro hmem
    have := (List.mem_filter.mp hmem).2
    simp [pEd, ho, ha] at this
  · intro hmem
    have := (List.mem_filter.mp hmem).2
    simp [pUp, ho] at this
  · intro hmem
    have h2 := (List.mem_filter.mp hmem).2
    simp only [pUp, Option.isNone_iff_eq_none, dictGet_eq_none_iff,
      dictKeys_map_pairF, decide_eq_true_eq] at h2
    exact h2 (List.mem_map_of_mem cmdKey hc)

/-- Witness for C8: an always-synced local command with a structurally
different remote counterpart is still classified unchanged. -/
theorem always_synced_classified_unchanged_witness :
    ({ name := "a", type := .chat_input, _always_synced := false, fields := 2 }
        : ApplicationCommand) ∈
      (_app_commands_diff need_sync
        [{ name := "a", type := .chat_input, _always_synced := true, fields := 1 }]
        [{ name := "a", type := .chat_input, _always_synced := false,
           fields := 2 }]).no_changes :=
  (always_synced_classified_unchanged need_sync _ _ (by decide) (by decide)
    { name := "a", type := .chat_input, _always_synced := true, fields := 1 }
    (by decide) (by decide) _ (by decide)).1

/-- C3 (refuted; code bug): `get_app_command` fails to return a registered
command.  Registering the slash command `ping` globally stores it under the
key `(str "ping", None, chat_input)`, but `get_app_command("ping",
chat_input)` looks up the key built from `chain[0]` (the generic alias of
the module-level `itertools.chain` import) instead of the `name` argument,
so the lookup misses and returns `None`. -/
theorem get_app_command_misses_registered_command :
    (add_slash_command [] { name := "ping", type := .chat_input }).1 =
      [(AppCommandMetadata.mk (.str "ping") none .chat_input,
        { name := "ping", type := .chat_input })] ∧
    (add_slash_command [] { name := "ping", type := .chat_input }).2 = none ∧
    dictGet (AppCommandMetadata.mk (.str "ping") none .chat_input)
      (add_slash_command [] { name := "ping", type := .chat_input }).1 =
      some { name := "ping", type := .chat_input } ∧
    get_app_command (add_slash_command [] { name := "ping", type := .chat_input }).1
      "ping" .chat_input none = none := by
  decide

/-- C4: per scope, with the scope's deletion policy applied (`reclassify` is
the applied condition — `!allow_command_deletion` on the global path,
`allow_command_deletion` on the guild path), the synchronizer issues no
bulk-replace call iff the resulting diff has empty upsert, edit and delete
buckets; otherwise it issues exactly one call whose payload is
`no_changes ++ edit ++ upsert` (unchanged + update + create). -/
theorem sync_push_iff_diff_nonempty
    (ns : ApplicationCommand → ApplicationCommand → Bool) (reclassify : Bool)
    (L R : List ApplicationCommand) :
    (scopeSyncPush ns reclassify L R = none ↔
      (applyDeletionPolicy reclassify (_app_commands_diff ns L R)).upsert = [] ∧
      (applyDeletionPolicy reclassify (_app_commands_diff ns L R)).edit = [] ∧
      (applyDeletionPolicy reclassify (_app_commands_diff ns L R)).delete = []) ∧
    (scopeSyncPush ns reclassify L R ≠ none →
      scopeSyncPush ns reclassify L R =
        some ((applyDeletionPolicy reclassify (_app_commands_diff ns L R)).no_changes ++
          (applyDeletionPolicy reclassify (_app_commands_diff ns L R)).edit ++
          (applyDeletionPolicy reclassify (_app_commands_diff ns L R)).upsert)) := by
  constructor
  · rw [scopeSyncPush, pushPayload_eq_none_iff, update_required_eq_false_iff]
  · intro h
    rw [scopeSyncPush] at h ⊢
    rcases hu : update_required (applyDeletionPolicy reclassify (_app_commands_diff ns L R)) with _ | _
    · exact absurd (pushPayload_eq_none_iff _ |>.mpr hu) h
    · exact pushPayload_eq_some _ hu

/-- Witness for C4: an entirely-unchanged concrete diff produces no push,
and a nonempty one produces the composed payload. -/
theorem sync_push_iff_diff_nonempty_witness :
    scopeSyncPush need_sync false
        [{ name := "a", type := .chat_input }]
        [{ name := "a", type := .chat_input }] = none :=
  (sync_push_iff_diff_nonempty need_sync false _ _).1.mpr (by decide)

section RegistryLemmas

theorem dictGet_dictInsert_self {κ ν : Type} [DecidableEq κ]
    (k : κ) (v : ν) (l : List (κ × ν)) :
    dictGet k (dictInsert k v l) = some v := by
  induction l with
  | nil => simp [dictInsert, dictGet]
  | cons p rest ih =>
    by_cases hp : p.1 = k
    · rw [dictInsert_cons_pos hp]
      simp [dictGet]
    · rw [dictInsert_cons_neg hp]
      simp only [dictGet, if_neg hp]
      exact ih

theorem add_guild_entries_err_of_mem (cmd : InvokableApplicationCommand)
    (reg : Registry) (gl : List Int) (g : Int) (hg : g ∈ gl)
    (h : (dictGet (AppCommandMetadata.mk (.str cmd.name) (some g) cmd.type)
      reg).isSome = true) :
    (add_guild_entries cmd reg gl).2.isSome = true := by
  induction gl generalizing reg with
  | nil => simp at hg
  | cons g' gs ih =>
    by_cases h' : (dictGet (AppCommandMetadata.mk (.str cmd.name) (some g')
        cmd.type) reg).isSome = true
    · simp [add_guild_entries, h']
    · rcases List.mem_cons.mp hg with he | he
      · exact absurd (he ▸ h) h'
      · rw [add_guild_entries, if_neg h']
        exact ih _ he (dictGet_dictInsert_isSome_mono h)

theorem add_guild_entries_nodup (cmd : InvokableApplicationCommand)
    (reg : Registry) (gl : List Int) (h : (dictKeys reg).Nodup) :
    (dictKeys (add_guild_entries cmd reg gl).1).Nodup := by
  induction gl generalizing reg with
  | nil => simpa [add_guild_entries] using h
  | cons g gs ih =>
    by_cases h' : (dictGet (AppCommandMetadata.mk (.str cmd.name) (some g)
        cmd.type) reg).isSome = true
    · simpa [add_guild_entries, h'] using h
    · rw [add_guild_entries, if_neg h']
      exact ih _ (dictKeys_nodup_dictInsert h)

theorem add_app_command_nodup (reg : Registry) (cmd : InvokableApplicationCommand)
    (h : (dictKeys reg).Nodup) : (dictKeys (add_app_command reg cmd).1).Nodup := by
  rcases hgids : cmd.guild_ids with _ | gl
  · rw [add_app_command, hgids]
    by_cases h' : (dictGet (AppCommandMetadata.mk (.str cmd.name) none
        cmd.type) reg).isSome = true
    · simpa [h'] using h
    · simpa [h'] using dictKeys_nodup_dictInsert h
  · rcases gl with _ | ⟨g, gs⟩
    · rw [add_app_command, hgids]
      by_cases h' : (dictGet (AppCommandMetadata.mk (.str cmd.name) none
          cmd.type) reg).isSome = true
      · simpa [h'] using h
      · simpa [h'] using dictKeys_nodup_dictInsert h
    · rw [add_app_command, hgids]
      exact add_guild_entries_nodup cmd reg (g :: gs) h

theorem add_app_command_global_conflict (reg : Registry)
    (cmd : InvokableApplicationCommand)
    (hgl : guildIdsTruthy cmd.guild_ids = false)
    (h : (dictGet (AppCommandMetadata.mk (.str cmd.name) none cmd.type)
      reg).isSome = true) :
    (add_app_command reg cmd).2.isSome = true := by
  rcases hgids : cmd.guild_ids with _ | gl
  · rw [add_app_command, hgids]
    simp [h]
  · rcases gl with _ | ⟨g, gs⟩
    · rw [add_app_command, hgids]
      simp [h]
    · rw [hgids] at hgl
      simp [guildIdsTruthy] at hgl

theorem add_app_command_guild_conflict (reg : Registry)
    (cmd : InvokableApplicationCommand) (gl : List Int)
    (hgids : cmd.guild_ids = some gl)
    (h : ∃ g ∈ gl, (dictGet (AppCommandMetadata.mk (.str cmd.name) (some g)
      cmd.type) reg).isSome = true) :
    (add_app_command reg cmd).2.isSome = true := by
  rcases h with ⟨g, hg, hpres⟩
  rcases gl with _ | ⟨g', gs⟩
  · simp at hg
  · rw [add_app_command, hgids]
    exact add_guild_entries_err_of_mem cmd reg (g' :: gs) g hg hpres

end RegistryLemmas

/-- C6: adding a command via `add_slash_command` / `add_user_command` /
`add_message_command` raises `CommandRegistrationError` whenever a command
is already registered under an identical `(name, type, scope)` key — the
global key when `guild_ids` is falsy, or any of the per-guild keys
otherwise — and every add preserves the registry's at-most-one-descriptor-
per-key invariant (key `Nodup`). -/
theorem add_command_conflict_and_unique_keys (reg : Registry)
    (cmd : InvokableApplicationCommand) :
    (guildIdsTruthy cmd.guild_ids = false →
      (dictGet (AppCommandMetadata.mk (.str cmd.name) none cmd.type)
        reg).isSome = true →
      (add_slash_command reg cmd).2.isSome = true ∧
      (add_user_command reg cmd).2.isSome = true ∧
      (add_message_command reg cmd).2.isSome = true) ∧
    (∀ gl, cmd.guild_ids = some gl →
      (∃ g ∈ gl, (dictGet (AppCommandMetadata.mk (.str cmd.name) (some g)
        cmd.type) reg).isSome = true) →
      (add_slash_command reg cmd).2.isSome = true ∧
      (add_user_command reg cmd).2.isSome = true ∧
      (add_message_command reg cmd).2.isSome = true) ∧
    ((dictKeys reg).Nodup →
      (dictKeys (add_slash_command reg cmd).1).Nodup ∧
      (dictKeys (add_user_command reg cmd).1).Nodup ∧
      (dictKeys (add_message_command reg cmd).1).Nodup) := by
  refine ⟨fun hgl h => ?_, fun gl hgids h => ?_, fun h => ?_⟩
  · have := add_app_command_global_conflict reg cmd hgl h
    exact ⟨this, this, this⟩
  · have := add_app_command_guild_conflict reg cmd gl hgids h
    exact ⟨this, this, this⟩
  · have := add_app_command_nodup reg cmd h
    exact ⟨this, this, this⟩

/-- Witness for C6: re-adding the global slash command `a` to a registry
already holding it raises. -/
theorem add_command_conflict_and_unique_keys_witness :
    (add_slash_command
        [(AppCommandMetadata.mk (.str "a") none .chat_input,
          { name := "a", type := .chat_input })]
        { name := "a", type := .chat_input }).2.isSome = true :=
  ((add_command_conflict_and_unique_keys _ _).1 (by decide) (by decide)).1

/-- C9: removing a command under a `(name, type, scope)` key that is not
registered — the key each remove method actually builds — returns `None`,
raises nothing, and leaves the registry unchanged. -/
theorem remove_missing_command_returns_none (reg : Registry) (name : String)
    (gid : Option Int) :
    (dictGet (if optIntTruthy gid then
        AppCommandMetadata.mk (.str name) gid ApplicationCommandType.chat_input
      else AppCommandMetadata.mk (.str name) none ApplicationCommandType.chat_input)
        reg = none →
      remove_slash_command reg name gid = (reg, none)) ∧
    (dictGet (AppCommandMetadata.mk (.str name) gid ApplicationCommandType.user)
        reg = none →
      remove_user_command reg name gid = (reg, none)) ∧
    (dictGet (AppCommandMetadata.mk (.str name) gid ApplicationCommandType.message)
        reg = none →
      remove_message_command reg name gid = (reg, none)) := by
  refine ⟨fun h => ?_, fun h => ?_, fun h => ?_⟩
  · rw [remove_slash_command]
    by_cases hg : optIntTruthy gid
    · rw [if_pos hg] at h
      simp only [hg, if_true]
      exact dictPop_of_get_none h
    · rw [if_neg hg] at h
      simp only [hg, if_false, Bool.false_eq_true]
      exact dictPop_of_get_none h
  · exact dictPop_of_get_none h
  · exact dictPop_of_get_none h

/-- Witness for C9: removing the unregistered slash command `x` from the
empty registry returns `None` and changes nothing. -/
theorem remove_missing_command_returns_none_witness :
    remove_slash_command [] "x" none = ([], none) :=
  (remove_missing_command_returns_none [] "x" none).1 (by decide)

section PartialRegistrationLemmas

theorem add_guild_entries_append (cmd : InvokableApplicationCommand)
    (reg : Registry) (gs₁ gs₂ : List Int)
    (h : (add_guild_entries cmd reg gs₁).2 = none) :
    add_guild_entries cmd reg (gs₁ ++ gs₂) =
      add_guild_entries cmd (add_guild_entries cmd reg gs₁).1 gs₂ := by
  induction gs₁ generalizing reg with
  | nil => simp [add_guild_entries]
  | cons g gs ih =>
    by_cases h' : (dictGet (AppCommandMetadata.mk (.str cmd.name) (some g)
        cmd.type) reg).isSome = true
    · rw [add_guild_entries, if_pos h'] at h
      simp at h
    · rw [add_guild_entries, if_neg h'] at h
      rw [List.cons_append, add_guild_entries, if_neg h',
        add_guild_entries, if_neg h']
      exact ih _ h

theorem add_guild_entries_preserves_some (cmd : InvokableApplicationCommand)
    (k : AppCommandMetadata) (reg : Registry) (gl : List Int)
    (h : dictGet k reg = some cmd) :
    dictGet k (add_guild_entries cmd reg gl).1 = some cmd := by
  induction gl generalizing reg with
  | nil => simpa [add_guild_entries] using h
  | cons g gs ih =>
    by_cases h' : (dictGet (AppCommandMetadata.mk (.str cmd.name) (some g)
        cmd.type) reg).isSome = true
    · simpa [add_guild_entries, h'] using h
    · rw [add_guild_entries, if_neg h']
      exact ih _ (dictGet_dictInsert_same_val h)

theorem add_guild_entries_success_registers (cmd : InvokableApplicationCommand)
    (reg : Registry) (gl : List Int)
    (h : (add_guild_entries cmd reg gl).2 = none) :
    ∀ g ∈ gl, dictGet (AppCommandMetadata.mk (.str cmd.name) (some g) cmd.type)
      (add_guild_entries cmd reg gl).1 = some cmd := by
  induction gl generalizing reg with
  | nil => simp
  | cons g' gs ih =>
    by_cases h' : (dictGet (AppCommandMetadata.mk (.str cmd.name) (some g')
        cmd.type) reg).isSome = true
    · rw [add_guild_entries, if_pos h'] at h
      simp at h
    · rw [add_guild_entries, if_neg h'] at h ⊢
      intro g hg
      rcases List.mem_cons.mp hg with he | he
      · subst he
        exact add_guild_entries_preserves_some cmd _ _ gs
          (dictGet_dictInsert_self _ cmd reg)
      · exact ih _ h g he

end PartialRegistrationLemmas

/-- C10: registration of a command scoped to several guilds is not atomic
on conflict.  If the per-guild loop succeeds on the prefix `gs₁` and the
key for the next guild id `g` collides, `add_slash_command` raises
`CommandRegistrationError`, yet every entry inserted for the guilds of
`gs₁` remains registered afterwards. -/
theorem add_command_partial_registration_on_conflict (reg : Registry)
    (cmd : InvokableApplicationCommand) (gs₁ : List Int) (g : Int) (gs₂ : List Int)
    (hgids : cmd.guild_ids = some (gs₁ ++ g :: gs₂))
    (hok : (add_guild_entries cmd reg gs₁).2 = none)
    (hcol : (dictGet (AppCommandMetadata.mk (.str cmd.name) (some g) cmd.type)
      (add_guild_entries cmd reg gs₁).1).isSome = true) :
    (add_slash_command reg cmd).2.isSome = true ∧
    ∀ g' ∈ gs₁, dictGet (AppCommandMetadata.mk (.str cmd.name) (some g') cmd.type)
      (add_slash_command reg cmd).1 = some cmd := by
  have hfull : add_guild_entries cmd reg (gs₁ ++ g :: gs₂) =
      ((add_guild_entries cmd reg gs₁).1, some ⟨cmd.name, some g⟩) := by
    rw [add_guild_entries_append cmd reg gs₁ (g :: gs₂) hok,
      add_guild_entries, if_pos hcol]
  have hadd : add_slash_command reg cmd =
      ((add_guild_entries cmd reg gs₁).1, some ⟨cmd.name, some g⟩) := by
    rw [add_slash_command, add_app_command]
    rcases gs₁ with _ | ⟨a, as⟩
    · rw [hgids]
      simpa using hfull
    · rw [hgids, List.cons_append]
      rw [List.cons_append] at hfull
      simpa using hfull
  rw [hadd]
  exact ⟨rfl, fun g' hg' => add_guild_entries_success_registers cmd reg gs₁ hok g' hg'⟩

/-- Witness for C10: declaring the slash command `a` with
`guild_ids = [7, 7]` registers the key for guild 7 on the first iteration,
collides on the second, raises — and the first insertion survives. -/
theorem add_command_partial_registration_on_conflict_witness :
    (add_slash_command []
        { name := "a", type := .chat_input, guild_ids := some [7, 7] }).2.isSome
      = true ∧
    ∀ g' ∈ ([7] : List Int),
      dictGet (AppCommandMetadata.mk (.str "a") (some g')
          ApplicationCommandType.chat_input)
        (add_slash_command []
          { name := "a", type := .chat_input, guild_ids := some [7, 7] }).1 =
        some { name := "a", type := .chat_input, guild_ids := some [7, 7] } :=
  add_command_partial_registration_on_conflict []
    { name := "a", type := .chat_input, guild_ids := some [7, 7] }
    [7] 7 [] rfl (by decide) (by decide)

/-- C5: when command sync is enabled, no sync pass is queued, and the
interaction's command id matches neither a known global nor a known guild
command, `process_application_commands` clears the guild's remote commands
(one bulk-overwrite with the empty list), responds with the transient
"just synced" notice, invokes no registered command, and raises nothing —
the two API calls' `HTTPException`s (`overwrite_fails` / `respond_fails`)
are swallowed. -/
theorem process_unknown_id_corrective (sync_commands sync_queued : Bool)
    (gg : Nat → Option ApplicationCommand)
    (ggc : Option Int → Nat → Option ApplicationCommand)
    (reg : List InvokableApplicationCommand)
    (can_run invoke_fails overwrite_fails respond_fails : Bool)
    (inter : Interaction)
    (hs : sync_commands = true) (hq : sync_queued = false)
    (hg : gg inter.data.id = none) (hgu : ggc inter.guild_id inter.data.id = none) :
    process_application_commands sync_commands sync_queued gg ggc reg can_run
        invoke_fails overwrite_fails respond_fails inter =
      ([DispatchAction.bulkOverwriteGuildCommands inter.guild_id [] (!overwrite_fails),
        DispatchAction.respondJustSynced (!respond_fails)], none) ∧
    ∀ c, DispatchAction.invokeCommand c ∉
      (process_application_commands sync_commands sync_queued gg ggc reg can_run
        invoke_fails overwrite_fails respond_fails inter).1 := by
  subst hs hq
  have heq : process_application_commands true false gg ggc reg can_run
      invoke_fails overwrite_fails respond_fails inter =
      ([DispatchAction.bulkOverwriteGuildCommands inter.guild_id [] (!overwrite_fails),
        DispatchAction.respondJustSynced (!respond_fails)], none) := by
    simp [process_application_commands, hg, hgu]
  refine ⟨heq, fun c => ?_⟩
  rw [heq]
  simp

/-- Witness for C5: a concrete unknown-id interaction with both API calls
failing still yields exactly the corrective trace and no uncaught error. -/
theorem process_unknown_id_corrective_witness :
    process_application_commands true false (fun _ => none) (fun _ _ => none)
        [] true false true true ⟨⟨5, .chat_input⟩, some 9⟩ =
      ([DispatchAction.bulkOverwriteGuildCommands (some 9) [] false,
        DispatchAction.respondJustSynced false], none) :=
  (process_unknown_id_corrective true false (fun _ => none) (fun _ _ => none)
    [] true false true true ⟨⟨5, .chat_input⟩, some 9⟩ rfl rfl rfl rfl).1

section IdempotenceLemmas

variable (ns : ApplicationCommand → ApplicationCommand → Bool)

theorem nodup_map_inj {α β : Type} {f : α → β} {l : List α}
    (h : (l.map f).Nodup) {a b : α} (ha : a ∈ l) (hb : b ∈ l)
    (he : f a = f b) : a = b := by
  induction l with
  | nil => simp at ha
  | cons x xs ih =>
    simp only [List.map_cons, List.nodup_cons] at h
    rcases List.mem_cons.mp ha with ha' | ha' <;>
      rcases List.mem_cons.mp hb with hb' | hb'
    · rw [ha', hb']
    · exfalso
      apply h.1
      rw [← ha', he]
      exact List.mem_map_of_mem f hb'
    · exfalso
      apply h.1
      rw [← hb', ← he]
      exact List.mem_map_of_mem f ha'
    · exact ih h.2 ha' hb'

theorem fNo_eq_none_iff (old_cmds : List (CmdKey × ApplicationCommand))
    (c : ApplicationCommand) :
    fNo ns old_cmds c = none ↔ pNo ns old_cmds c = false := by
  rcases h : dictGet (cmdKey c) old_cmds with _ | o
  · simp [fNo, pNo, h]
  · by_cases ha : c._always_synced <;> by_cases hs : ns c o <;>
      simp [fNo, pNo, h, ha, hs]

theorem fNo_map_some_key (R : List ApplicationCommand)
    {c m : ApplicationCommand} (h : fNo ns (R.map pairF) c = some m) :
    cmdKey m = cmdKey c := by
  rcases hd : dictGet (cmdKey c) (R.map pairF) with _ | o
  · simp [fNo, hd] at h
  · have hkey : cmdKey o = cmdKey c := by
      rcases List.mem_map.mp (dictGet_mem_of_eq_some hd) with ⟨r, _, he⟩
      have h2 : r = o := congrArg Prod.snd he
      rw [← h2]
      exact congrArg Prod.fst he
    by_cases ha : c._always_synced
    · simp only [fNo, hd, ha, if_true, Option.some.injEq] at h
      rw [← h]
      exact hkey
    · by_cases hs : ns c o
      · simp [fNo, hd, ha, hs] at h
      · simp only [fNo, hd, ha, hs, if_false, Bool.false_eq_true,
          Option.some.injEq] at h
        rw [← h]

theorem fNo_some_cases (old_cmds : List (CmdKey × ApplicationCommand))
    {c m : ApplicationCommand} (h : fNo ns old_cmds c = some m) :
    c._always_synced = true ∨ m = c := by
  rcases hd : dictGet (cmdKey c) old_cmds with _ | o
  · simp [fNo, hd] at h
  · by_cases ha : c._always_synced
    · exact Or.inl ha
    · by_cases hs : ns c o
      · simp [fNo, hd, ha, hs] at h
      · simp only [fNo, hd, ha, hs, if_false, Bool.false_eq_true,
          Option.some.injEq] at h
        exact Or.inr h.symm

theorem pNo_pEd_excl (old_cmds : List (CmdKey × ApplicationCommand))
    (c : ApplicationCommand) (h : pNo ns old_cmds c = true) :
    pEd ns old_cmds c = false := by
  rcases hd : dictGet (cmdKey c) old_cmds with _ | o
  · simp [pEd, hd]
  · simp only [pNo, hd] at h
    simp only [pEd, hd]
    rcases Bool.or_eq_true_iff.mp h with h' | h'
    · simp [h']
    · simp only [Bool.not_eq_true'] at h'
      simp [h']

theorem pNo_pUp_excl (old_cmds : List (CmdKey × ApplicationCommand))
    (c : ApplicationCommand) (h : pNo ns old_cmds c = true) :
    pUp old_cmds c = false := by
  rcases hd : dictGet (cmdKey c) old_cmds with _ | o
  · simp [pNo, hd] at h
  · simp [pUp, hd]

theorem pEd_pUp_excl (old_cmds : List (CmdKey × ApplicationCommand))
    (c : ApplicationCommand) (h : pEd ns old_cmds c = true) :
    pUp old_cmds c = false := by
  rcases hd : dictGet (cmdKey c) old_cmds with _ | o
  · simp [pEd, hd] at h
  · simp [pUp, hd]

theorem p_cases (old_cmds : List (CmdKey × ApplicationCommand))
    (c : ApplicationCommand) :
    pUp old_cmds c = true ∨ pEd ns old_cmds c = true ∨ pNo ns old_cmds c = true := by
  rcases hd : dictGet (cmdKey c) old_cmds with _ | o
  · exact Or.inl (by simp [pUp, hd])
  · by_cases ha : c._always_synced
    · exact Or.inr (Or.inr (by simp [pNo, hd, ha]))
    · by_cases hs : ns c o
      · exact Or.inr (Or.inl (by simp [pEd, hd, ha, hs]))
      · exact Or.inr (Or.inr (by simp [pNo, hd, ha, hs]))

theorem map_cmdKey_filterMap_fNo (R : List ApplicationCommand)
    (L : List ApplicationCommand) :
    (L.filterMap (fNo ns (R.map pairF))).map cmdKey =
      (L.filter (pNo ns (R.map pairF))).map cmdKey := by
  induction L with
  | nil => simp
  | cons c L ih =>
    rcases h : fNo ns (R.map pairF) c with _ | m
    · have hp : pNo ns (R.map pairF) c = false := (fNo_eq_none_iff ns _ c).mp h
      simp [List.filterMap_cons, List.filter_cons, h, hp, ih]
    · have hp : pNo ns (R.map pairF) c = true := by
        rcases hb : pNo ns (R.map pairF) c with _ | _
        · rw [← fNo_eq_none_iff ns (R.map pairF) c] at hb
          rw [h] at hb
          exact absurd hb (by simp)
        · rfl
      have hkey := fNo_map_some_key ns R h
      simp [List.filterMap_cons, List.filter_cons, h, hp, ih, hkey]

end IdempotenceLemmas

section IdempotenceAssembly

variable (ns : ApplicationCommand → ApplicationCommand → Bool)

theorem keysA_sublist (L R : List ApplicationCommand) :
    ((L.filterMap (fNo ns (R.map pairF))).map cmdKey).Sublist (L.map cmdKey) := by
  rw [map_cmdKey_filterMap_fNo]
  exact (List.filter_sublist L).map cmdKey

theorem keysD_not_in_L (L R : List ApplicationCommand) :
    ∀ k ∈ (R.filter (pUp (L.map pairF))).map cmdKey, k ∉ L.map cmdKey := by
  intro k hk
  rcases List.mem_map.mp hk with ⟨o, hof, hok⟩
  have hpo := (List.mem_filter.mp hof).2
  rcases hd : dictGet (cmdKey o) (L.map pairF) with _ | v
  · rw [dictGet_eq_none_iff, dictKeys_map_pairF] at hd
    rw [← hok]
    exact hd
  · simp [pUp, hd] at hpo

theorem disj_filters (L : List ApplicationCommand)
    (hL : (L.map cmdKey).Nodup) {p q : ApplicationCommand → Bool}
    (hex : ∀ c ∈ L, p c = true → q c = false) :
    ((L.filter p).map cmdKey).Disjoint ((L.filter q).map cmdKey) := by
  rw [List.disjoint_left]
  intro k hk1 hk2
  rcases List.mem_map.mp hk1 with ⟨a, haf, hak⟩
  rcases List.mem_map.mp hk2 with ⟨b, hbf, hbk⟩
  have hab : a = b := nodup_map_inj hL (List.mem_filter.mp haf).1
    (List.mem_filter.mp hbf).1 (hak.trans hbk.symm)
  have hq := (List.mem_filter.mp hbf).2
  rw [← hab, hex a (List.mem_filter.mp haf).1 (List.mem_filter.mp haf).2] at hq
  exact absurd hq (by simp)

theorem disj_with_D (L R : List ApplicationCommand)
    {X : List ApplicationCommand}
    (hsub : (X.map cmdKey).Sublist (L.map cmdKey)) :
    (X.map cmdKey).Disjoint ((R.filter (pUp (L.map pairF))).map cmdKey) := by
  rw [List.disjoint_left]
  intro k hk hkd
  exact keysD_not_in_L L R k hkd (hsub.subset hk)

theorem nodup_keys_append {X Y : List ApplicationCommand}
    (hX : (X.map cmdKey).Nodup) (hY : (Y.map cmdKey).Nodup)
    (hd : (X.map cmdKey).Disjoint (Y.map cmdKey)) :
    ((X ++ Y).map cmdKey).Nodup := by
  rw [List.map_append, List.nodup_append]
  exact ⟨hX, hY, hd⟩

theorem disj_keys_append_right {X Y Z : List ApplicationCommand}
    (h1 : (X.map cmdKey).Disjoint (Y.map cmdKey))
    (h2 : (X.map cmdKey).Disjoint (Z.map cmdKey)) :
    (X.map cmdKey).Disjoint ((Y ++ Z).map cmdKey) := by
  rw [List.map_append, List.disjoint_append_right]
  exact ⟨h1, h2⟩

theorem disj_keys_append_left {X Y Z : List ApplicationCommand}
    (h1 : (X.map cmdKey).Disjoint (Z.map cmdKey))
    (h2 : (Y.map cmdKey).Disjoint (Z.map cmdKey)) :
    ((X ++ Y).map cmdKey).Disjoint (Z.map cmdKey) := by
  rw [List.map_append, List.disjoint_append_left]
  exact ⟨h1, h2⟩

theorem covering_of_buckets (L R P : List ApplicationCommand)
    (hPkeys : (P.map cmdKey).Nodup)
    (hsubA : ∀ m ∈ L.filterMap (fNo ns (R.map pairF)), m ∈ P)
    (hsubB : ∀ m ∈ L.filter (pEd ns (R.map pairF)), m ∈ P)
    (hsubC : ∀ m ∈ L.filter (pUp (R.map pairF)), m ∈ P) :
    ∀ c ∈ L, ∃ m, dictGet (cmdKey c) (P.map pairF) = some m ∧
      (c._always_synced = true ∨ m = c) := by
  intro c hc
  have hPd : (dictKeys (P.map pairF)).Nodup := by
    rw [dictKeys_map_pairF]
    exact hPkeys
  rcases p_cases ns (R.map pairF) c with hU | hE | hN
  · exact ⟨c, dictGet_eq_some_of_mem hPd
      (List.mem_map_of_mem pairF (hsubC c (List.mem_filter.mpr ⟨hc, hU⟩))),
      Or.inr rfl⟩
  · exact ⟨c, dictGet_eq_some_of_mem hPd
      (List.mem_map_of_mem pairF (hsubB c (List.mem_filter.mpr ⟨hc, hE⟩))),
      Or.inr rfl⟩
  · rcases ho : fNo ns (R.map pairF) c with _ | m
    · rw [fNo_eq_none_iff] at ho
      rw [ho] at hN
      exact absurd hN (by simp)
    · refine ⟨m, ?_, fNo_some_cases ns _ ho⟩
      have hm : m ∈ P := hsubA m (List.mem_filterMap.mpr ⟨c, hc, ho⟩)
      have hk : pairF m = (cmdKey c, m) := by
        rw [pairF, fNo_map_some_key ns R ho]
      exact dictGet_eq_some_of_mem hPd (hk ▸ List.mem_map_of_mem pairF hm)

theorem scopeSyncPush_none_of_covering (reclassify : Bool)
    (L P : List ApplicationCommand)
    (hL : (L.map cmdKey).Nodup) (hPkeys : (P.map cmdKey).Nodup)
    (hrefl : ∀ c, ns c c = false)
    (hcov : ∀ c ∈ L, ∃ m, dictGet (cmdKey c) (P.map pairF) = some m ∧
      (c._always_synced = true ∨ m = c))
    (hdel : reclassify = true ∨ ∀ m ∈ P, cmdKey m ∈ L.map cmdKey) :
    scopeSyncPush ns reclassify L P = none := by
  rw [scopeSyncPush, app_commands_diff_eq ns L P hL hPkeys,
    pushPayload_eq_none_iff, update_required_eq_false_iff]
  have hup : L.filter (pUp (P.map pairF)) = [] := by
    rw [List.filter_eq_nil_iff]
    intro c hc
    rcases hcov c hc with ⟨m, hm, _⟩
    simp [pUp, hm]
  have hed : L.filter (pEd ns (P.map pairF)) = [] := by
    rw [List.filter_eq_nil_iff]
    intro c hc
    rcases hcov c hc with ⟨m, hm, hcase⟩
    rcases hcase with ha | he
    · simp [pEd, hm, ha]
    · rw [he] at hm
      simp [pEd, hm, hrefl]
  cases reclassify with
  | true =>
    refine ⟨?_, ?_, ?_⟩
    · simpa [applyDeletionPolicy] using hup
    · simpa [applyDeletionPolicy] using hed
    · simp [applyDeletionPolicy]
  | false =>
    rcases hdel with hcontra | hdel'
    · exact absurd hcontra (by simp)
    · have hd2 : P.filter (pUp (L.map pairF)) = [] := by
        rw [List.filter_eq_nil_iff]
        intro m hm
        have hmem := hdel' m hm
        rcases ho : dictGet (cmdKey m) (L.map pairF) with _ | v
        · rw [dictGet_eq_none_iff, dictKeys_map_pairF] at ho
          exact absurd hmem ho
        · simp [pUp, ho]
      refine ⟨?_, ?_, ?_⟩
      · simpa [applyDeletionPolicy] using hup
      · simpa [applyDeletionPolicy] using hed
      · simpa [applyDeletionPolicy] using hd2

end IdempotenceAssembly

theorem scopeSyncPush_stable (ns : ApplicationCommand → ApplicationCommand → Bool)
    (reclassify : Bool) (L R P : List ApplicationCommand)
    (hL : (L.map cmdKey).Nodup) (hR : (R.map cmdKey).Nodup)
    (hrefl : ∀ c, ns c c = false)
    (h : scopeSyncPush ns reclassify L R = some P) :
    scopeSyncPush ns reclassify L P = none := by
  have nA : ((L.filterMap (fNo ns (R.map pairF))).map cmdKey).Nodup :=
    List.Nodup.sublist (keysA_sublist ns L R) hL
  have nB : ((L.filter (pEd ns (R.map pairF))).map cmdKey).Nodup :=
    List.Nodup.sublist ((List.filter_sublist L).map cmdKey) hL
  have nC : ((L.filter (pUp (R.map pairF))).map cmdKey).Nodup :=
    List.Nodup.sublist ((List.filter_sublist L).map cmdKey) hL
  have nD : ((R.filter (pUp (L.map pairF))).map cmdKey).Nodup :=
    List.Nodup.sublist ((List.filter_sublist R).map cmdKey) hR
  have dAB : ((L.filterMap (fNo ns (R.map pairF))).map cmdKey).Disjoint
      ((L.filter (pEd ns (R.map pairF))).map cmdKey) := by
    rw [map_cmdKey_filterMap_fNo]
    exact disj_filters L hL fun c _ hp => pNo_pEd_excl ns (R.map pairF) c hp
  have dAC : ((L.filterMap (fNo ns (R.map pairF))).map cmdKey).Disjoint
      ((L.filter (pUp (R.map pairF))).map cmdKey) := by
    rw [map_cmdKey_filterMap_fNo]
    exact disj_filters L hL fun c _ hp => pNo_pUp_excl ns (R.map pairF) c hp
  have dBC : ((L.filter (pEd ns (R.map pairF))).map cmdKey).Disjoint
      ((L.filter (pUp (R.map pairF))).map cmdKey) :=
    disj_filters L hL fun c _ hp => pEd_pUp_excl ns (R.map pairF) c hp
  have dAD : ((L.filterMap (fNo ns (R.map pairF))).map cmdKey).Disjoint
      ((R.filter (pUp (L.map pairF))).map cmdKey) :=
    disj_with_D L R (keysA_sublist ns L R)
  have dBD : ((L.filter (pEd ns (R.map pairF))).map cmdKey).Disjoint
      ((R.filter (pUp (L.map pairF))).map cmdKey) :=
    disj_with_D L R ((List.filter_sublist L).map cmdKey)
  have dCD : ((L.filter (pUp (R.map pairF))).map cmdKey).Disjoint
      ((R.filter (pUp (L.map pairF))).map cmdKey) :=
    disj_with_D L R ((List.filter_sublist L).map cmdKey)
  have hAL : ∀ m ∈ L.filterMap (fNo ns (R.map pairF)), cmdKey m ∈ L.map cmdKey :=
    fun m hm => (keysA_sublist ns L R).subset (List.mem_map_of_mem cmdKey hm)
  have hBL : ∀ m ∈ L.filter (pEd ns (R.map pairF)), cmdKey m ∈ L.map cmdKey :=
    fun m hm => List.mem_map_of_mem cmdKey ((List.filter_sublist L).subset hm)
  have hCL : ∀ m ∈ L.filter (pUp (R.map pairF)), cmdKey m ∈ L.map cmdKey :=
    fun m hm => List.mem_map_of_mem cmdKey ((List.filter_sublist L).subset hm)
  rw [scopeSyncPush, app_commands_diff_eq ns L R hL hR] at h
  cases reclassify with
  | false =>
    simp only [applyDeletionPolicy, Bool.false_eq_true, if_false] at h
    by_cases hu : update_required
        { no_changes := L.filterMap (fNo ns (R.map pairF)),
          upsert := L.filter (pUp (R.map pairF)),
          edit := L.filter (pEd ns (R.map pairF)),
          delete := R.filter (pUp (L.map pairF)) } = true
    · rw [pushPayload_eq_some _ hu] at h
      have hP := Option.some_inj.mp h
      rw [← hP]
      have hPkeys : (((L.filterMap (fNo ns (R.map pairF)) ++
          (L.filter (pEd ns (R.map pairF)) ++ L.filter (pUp (R.map pairF))))).map
            cmdKey).Nodup :=
        nodup_keys_append nA (nodup_keys_append nB nC dBC)
          (disj_keys_append_right dAB dAC)
      refine scopeSyncPush_none_of_covering ns false L _ hL (by simpa using hPkeys)
        hrefl ?_ (Or.inr ?_)
      · refine covering_of_buckets ns L R _ (by simpa using hPkeys) ?_ ?_ ?_
        · intro m hm
          simp only [List.append_assoc, List.mem_append]
          exact Or.inl hm
        · intro m hm
          simp only [List.append_assoc, List.mem_append]
          exact Or.inr (Or.inl hm)
        · intro m hm
          simp only [List.append_assoc, List.mem_append]
          exact Or.inr (Or.inr hm)
      · intro m hm
        simp only [List.append_assoc, List.mem_append] at hm
        rcases hm with hm | hm | hm
        · exact hAL m hm
        · exact hBL m hm
        · exact hCL m hm
    · rw [Bool.not_eq_true] at hu
      rw [(pushPayload_eq_none_iff _).mpr hu] at h
      exact absurd h (by simp)
  | true =>
    simp only [applyDeletionPolicy, if_true] at h
    by_cases hu : update_required
        { no_changes := L.filterMap (fNo ns (R.map pairF)) ++
            R.filter (pUp (L.map pairF)),
          upsert := L.filter (pUp (R.map pairF)),
          edit := L.filter (pEd ns (R.map pairF)),
          delete := [] } = true
    · rw [pushPayload_eq_some _ hu] at h
      have hP := Option.some_inj.mp h
      rw [← hP]
      have hPkeys : ((((L.filterMap (fNo ns (R.map pairF)) ++
          R.filter (pUp (L.map pairF))) ++
          (L.filter (pEd ns (R.map pairF)) ++ L.filter (pUp (R.map pairF))))).map
            cmdKey).Nodup :=
        nodup_keys_append (nodup_keys_append nA nD dAD)
          (nodup_keys_append nB nC dBC)
          (disj_keys_append_left (disj_keys_append_right dAB dAC)
            (disj_keys_append_right (List.disjoint_comm.mp dBD)
              (List.disjoint_comm.mp dCD)))
      refine scopeSyncPush_none_of_covering ns true L _ hL (by simpa using hPkeys)
        hrefl ?_ (Or.inl rfl)
      refine covering_of_buckets ns L R _ (by simpa using hPkeys) ?_ ?_ ?_
      · intro m hm
        simp only [List.append_assoc, List.mem_append]
        exact Or.inl hm
      · intro m hm
        simp only [List.append_assoc, List.mem_append]
        exact Or.inr (Or.inr (Or.inl hm))
      · intro m hm
        simp only [List.append_assoc, List.mem_append]
        exact Or.inr (Or.inr (Or.inr hm))
    · rw [Bool.not_eq_true] at hu
      rw [(pushPayload_eq_none_iff _).mpr hu] at h
      exact absurd h (by simp)

/-- C7: running a scope's synchronization twice in succession with the same
local command list produces no push on the second run — after a successful
first pass the remote snapshot is the pushed payload, whose diff against the
unchanged local set is entirely `no_changes`; a pushless first pass leaves
the snapshot alone and the second pass recomputes the same empty decision.
Holds for both deletion-policy paths (`reclassify` covers the global and the
guild condition) whenever the comparator reports no difference between a
command and itself. -/
theorem sync_pass_idempotent (ns : ApplicationCommand → ApplicationCommand → Bool)
    (reclassify : Bool) (L R : List ApplicationCommand)
    (hL : (L.map cmdKey).Nodup) (hR : (R.map cmdKey).Nodup)
    (hrefl : ∀ c, ns c c = false) :
    (scopeSyncPass ns reclassify L (scopeSyncPass ns reclassify L R).2).1 = none := by
  rcases h : scopeSyncPush ns reclassify L R with _ | P
  · have h2 : (scopeSyncPass ns reclassify L R).2 = R := by
      simp [scopeSyncPass, h]
    rw [h2]
    simp [scopeSyncPass, h]
  · have h2 : (scopeSyncPass ns reclassify L R).2 = P := by
      simp [scopeSyncPass, h]
    rw [h2]
    simp [scopeSyncPass, scopeSyncPush_stable ns reclassify L R P hL hR hrefl h]

/-- Witness for C7: a concrete second pass — local `a` differing from its
remote version plus a stale remote `b`, under the kept-deletes policy —
pushes nothing. -/
theorem sync_pass_idempotent_witness :
    (scopeSyncPass need_sync false
      [{ name := "a", type := .chat_input, fields := 1 }]
      (scopeSyncPass need_sync false
        [{ name := "a", type := .chat_input, fields := 1 }]
        [{ name := "a", type := .chat_input, fields := 2 },
         { name := "b", type := .user }]).2).1 = none :=
  sync_pass_idempotent need_sync false _ _ (by decide) (by decide)
    (fun c => by simp [need_sync])

end Disnake
